import Mathlib

/-!
Verification development for the MEOW steganographic image container.

The repository consists of a GUI viewer (`meow_gui.py`), two test harnesses
(`test_meow_ecc.py`, `test_ecc_effectiveness.py`), a benchmark
(`benchmark_ecc.py`) and a demo (`demo_ecc.py`).  All of them drive the core
codec module `meow_format.py` (class `MeowFormat`, functions
`smart_fallback_loader`, `AIMetadata`, and the module-level `RSCodec` global),
which is not part of the checked-in sources; where a definition below models
that missing module it is marked `Modelled from the spec:` and follows the
design document's wording.  Definitions taken from the checked-in Python
sources follow those sources line by line.
-/

set_option maxRecDepth 20000

namespace Meow

/-! ### Bit and byte utilities

The wire stream of the codec is a byte stream; the bit-plane mapper consumes
it two bits per colour channel, most significant bit of each group first.
-/

/-- Numeric value of one bit. -/
def bitVal (b : Bool) : Nat := if b then 1 else 0

/-- Bits of one byte, most significant first (the canonical serialization
order fixed for the wire layout). -/
def byteToBits (b : Nat) : List Bool :=
  [b.testBit 7, b.testBit 6, b.testBit 5, b.testBit 4,
   b.testBit 3, b.testBit 2, b.testBit 1, b.testBit 0]

/-- Byte stream to bit stream. -/
def bytesToBits (bs : List Nat) : List Bool := bs.flatMap byteToBits

/-- Reassemble one byte from its eight bits, most significant first. -/
def bitsToByte (l : List Bool) : Nat :=
  l.foldl (fun acc b => acc * 2 + bitVal b) 0

/-- Fuel-driven chunk splitter; the fuel bounds the recursion depth so the
definition is structural (each step consumes the head, so a fuel of the
list's length always suffices). -/
def chunksOfFuel (n : Nat) : Nat → List α → List (List α)
  | _, [] => []
  | 0, a :: l => [a :: l]
  | fuel + 1, a :: l =>
      (a :: l.take (n - 1)) :: chunksOfFuel n fuel (l.drop (n - 1))

/-- Split a list into consecutive chunks of `n` elements; the final chunk may
be shorter.  Used both for the 8-bit byte boundary and for the 255-byte ECC
block boundary. -/
def chunksOf (n : Nat) (l : List α) : List (List α) :=
  chunksOfFuel n l.length l

theorem chunksOfFuel_fuel_irrel (n : Nat) (l : List α) (f1 f2 : Nat)
    (h1 : l.length ≤ f1) (h2 : l.length ≤ f2) :
    chunksOfFuel n f1 l = chunksOfFuel n f2 l := by
  have main : ∀ (m : Nat) (l : List α) (f1 f2 : Nat), l.length = m →
      l.length ≤ f1 → l.length ≤ f2 →
      chunksOfFuel n f1 l = chunksOfFuel n f2 l := by
    intro m
    induction m using Nat.strong_induction_on with
    | _ m ih =>
      intro l f1 f2 hm h1 h2
      cases l with
      | nil => cases f1 <;> cases f2 <;> rfl
      | cons a t =>
        have hf1 : 1 ≤ f1 := by simp at h1; omega
        have hf2 : 1 ≤ f2 := by simp at h2; omega
        obtain ⟨g1, rfl⟩ : ∃ g1, f1 = g1 + 1 := ⟨f1 - 1, by omega⟩
        obtain ⟨g2, rfl⟩ : ∃ g2, f2 = g2 + 1 := ⟨f2 - 1, by omega⟩
        show (a :: t.take (n - 1)) :: chunksOfFuel n g1 (t.drop (n - 1)) =
          (a :: t.take (n - 1)) :: chunksOfFuel n g2 (t.drop (n - 1))
        have hdm : (t.drop (n - 1)).length < m := by
          simp only [List.length_drop]
          simp only [List.length_cons] at hm
          omega
        have hg1 : (t.drop (n - 1)).length ≤ g1 := by
          simp only [List.length_drop]
          simp only [List.length_cons] at h1
          omega
        have hg2 : (t.drop (n - 1)).length ≤ g2 := by
          simp only [List.length_drop]
          simp only [List.length_cons] at h2
          omega
        rw [ih _ hdm _ g1 g2 rfl hg1 hg2]
  exact main l.length l f1 f2 rfl h1 h2

/-- Bit stream back to bytes (8 bits per byte, most significant first). -/
def bitsToBytes (l : List Bool) : List Nat := (chunksOf 8 l).map bitsToByte

theorem length_byteToBits (b : Nat) : (byteToBits b).length = 8 := rfl

theorem length_bytesToBits (bs : List Nat) :
    (bytesToBits bs).length = 8 * bs.length := by
  induction bs with
  | nil => rfl
  | cons b bs ih =>
    simp [bytesToBits, List.flatMap_cons, length_byteToBits] at *
    omega

theorem bytesToBits_append (a b : List Nat) :
    bytesToBits (a ++ b) = bytesToBits a ++ bytesToBits b := by
  simp [bytesToBits]

theorem bitsToByte_byteToBits : ∀ b < 256, bitsToByte (byteToBits b) = b := by
  decide

theorem chunksOf_nil (n : Nat) : chunksOf n ([] : List α) = [] := rfl

theorem chunksOf_cons (n : Nat) (a : α) (l : List α) :
    chunksOf n (a :: l) = (a :: l.take (n - 1)) :: chunksOf n (l.drop (n - 1)) := by
  show (a :: l.take (n - 1)) :: chunksOfFuel n l.length (l.drop (n - 1)) =
    (a :: l.take (n - 1)) :: chunksOf n (l.drop (n - 1))
  rw [chunksOf, chunksOfFuel_fuel_irrel n (l.drop (n - 1)) l.length _
    (by simp [List.length_drop]) (le_refl _)]

theorem chunksOf_take_drop {n : Nat} (hn : 1 ≤ n) (l : List α) (hl : l ≠ []) :
    chunksOf n l = l.take n :: chunksOf n (l.drop n) := by
  cases l with
  | nil => exact absurd rfl hl
  | cons a t =>
    rw [chunksOf_cons]
    cases n with
    | zero => omega
    | succ m => simp

theorem chunksOf_append {n : Nat} (b rest : List α) (hb : b.length = n)
    (hn : 1 ≤ n) : chunksOf n (b ++ rest) = b :: chunksOf n rest := by
  have hne : b ++ rest ≠ [] := by
    cases b with
    | nil => simp at hb; omega
    | cons x t => simp
  rw [chunksOf_take_drop hn _ hne, List.take_left' hb, List.drop_left' hb]

theorem chunksOf_singleton {n : Nat} (b : List α) (hb : b.length ≤ n)
    (hne : b ≠ []) : chunksOf n b = [b] := by
  have h1 : 1 ≤ n := by
    cases b with
    | nil => exact absurd rfl hne
    | cons x t => simp at hb; omega
  rw [chunksOf_take_drop h1 _ hne, List.take_of_length_le hb,
    List.drop_eq_nil_of_le hb, chunksOf_nil]

theorem chunksOf_flatten {n : Nat} (hn : 1 ≤ n) (ls : List (List α))
    (h : ∀ b ∈ ls, b.length = n) : chunksOf n ls.flatten = ls := by
  induction ls with
  | nil => exact chunksOf_nil n
  | cons b bs ih =>
    rw [List.flatten_cons, chunksOf_append b bs.flatten (h b (by simp)) hn]
    rw [ih (fun x hx => h x (by simp [hx]))]

theorem bytesToBits_eq_flatten (bs : List Nat) :
    bytesToBits bs = (bs.map byteToBits).flatten := by
  induction bs with
  | nil => rfl
  | cons b t ih => simp only [bytesToBits, List.flatMap_cons, List.map_cons,
      List.flatten_cons] at *; rw [ih]

theorem bitsToBytes_bytesToBits (bs : List Nat) (h : ∀ b ∈ bs, b < 256) :
    bitsToBytes (bytesToBits bs) = bs := by
  unfold bitsToBytes
  rw [bytesToBits_eq_flatten]
  have hlen : ∀ l ∈ bs.map byteToBits, l.length = 8 := by
    intro l hl
    obtain ⟨b, _, rfl⟩ := List.mem_map.mp hl
    exact length_byteToBits b
  rw [chunksOf_flatten (by omega) _ hlen, List.map_map]
  have hcong : ∀ b ∈ bs, (bitsToByte ∘ byteToBits) b = id b := by
    intro b hb
    exact bitsToByte_byteToBits b (h b hb)
  rw [List.map_congr_left hcong, List.map_id]

/-! ### Bit-plane channel mapper

Modelled from the spec: `meow_format.py` is not among the checked-in sources,
so the mapper is reconstructed from §4.3 of the design document and the
viewer's description of the storage method ("Channels Used: RGB (2 bits
each)" in `meow_gui.py`).  Traversal is row-major over pixels with channel
order R, G, B, which on the flattened channel list is simply left to right;
each channel carries 2 bits, most significant bit of the group first, and
only the channel's lowest 2 bits are replaced.
-/

/-- Write a bit stream into the two lowest bits of successive channel
values; channels beyond the stream are untouched.  A trailing single bit
occupies the most significant position of its 2-bit group. -/
def writeChannelBits : List Nat → List Bool → List Nat
  | [], _ => []
  | cs, [] => cs
  | c :: cs, b1 :: b0 :: rest =>
      (c / 4 * 4 + bitVal b1 * 2 + bitVal b0) :: writeChannelBits cs rest
  | c :: cs, [b1] => (c / 4 * 4 + bitVal b1 * 2) :: cs

/-- Read the full LSB stream of an image: two bits per channel, most
significant bit of the 2-bit group first. -/
def readChannelBits (cs : List Nat) : List Bool :=
  cs.flatMap (fun c => [c.testBit 1, c.testBit 0])

theorem readChannelBits_cons (x : Nat) (xs : List Nat) :
    readChannelBits (x :: xs) =
      x.testBit 1 :: x.testBit 0 :: readChannelBits xs := by
  simp [readChannelBits, List.flatMap_cons]

theorem length_readChannelBits (cs : List Nat) :
    (readChannelBits cs).length = 2 * cs.length := by
  induction cs with
  | nil => rfl
  | cons c t ih =>
    rw [readChannelBits_cons, List.length_cons, List.length_cons, ih,
      List.length_cons]
    omega

theorem testBit_one_write (c : Nat) (b1 b0 : Bool) :
    (c / 4 * 4 + bitVal b1 * 2 + bitVal b0).testBit 1 = b1 := by
  have h0 : Nat.testBit (c / 4 * 4 + bitVal b1 * 2 + bitVal b0) 1 =
      decide ((c / 4 * 4 + bitVal b1 * 2 + bitVal b0) / 2 % 2 = 1) := by
    rw [Nat.testBit_succ, Nat.testBit_zero]
  rw [h0]
  cases b1 <;> cases b0 <;> simp [bitVal] <;> omega

theorem testBit_zero_write (c : Nat) (b1 b0 : Bool) :
    (c / 4 * 4 + bitVal b1 * 2 + bitVal b0).testBit 0 = b0 := by
  rw [Nat.testBit_zero]
  cases b1 <;> cases b0 <;> simp [bitVal] <;> omega

/-- Mapper law (§4.3): reading back the LSB stream of a written image
returns the written bits followed by the untouched channels' bits. -/
theorem readChannelBits_writeChannelBits :
    ∀ (cs : List Nat) (bits : List Bool), bits.length % 2 = 0 →
      bits.length ≤ 2 * cs.length →
      readChannelBits (writeChannelBits cs bits) =
        bits ++ readChannelBits (cs.drop (bits.length / 2)) := by
  intro cs
  induction cs with
  | nil =>
    intro bits _ hle
    simp only [List.length_nil, Nat.mul_zero, Nat.le_zero] at hle
    have hb : bits = [] := List.eq_nil_of_length_eq_zero hle
    subst hb
    rfl
  | cons c t ih =>
    intro bits heven hle
    match bits with
    | [] => simp [writeChannelBits]
    | [b1] => simp at heven
    | b1 :: b0 :: rest =>
      have hrestLen : rest.length % 2 = 0 := by
        simp at heven; omega
      have hrestLe : rest.length ≤ 2 * t.length := by
        simp at hle; omega
      have hw : writeChannelBits (c :: t) (b1 :: b0 :: rest) =
          (c / 4 * 4 + bitVal b1 * 2 + bitVal b0) :: writeChannelBits t rest :=
        rfl
      have hdrop : ((b1 :: b0 :: rest).length : Nat) / 2 = rest.length / 2 + 1 := by
        simp
        omega
      rw [hw, readChannelBits_cons, testBit_one_write, testBit_zero_write,
        ih rest hrestLen hrestLe, hdrop, List.drop_succ_cons]
      simp

/-! ### Payload codec

Modelled from the spec: `meow_format.py` is not among the checked-in sources.
The payload schema follows §3 of the design document: `version` (required,
decode rejects unsupported values), `creation_timestamp` (a string, carried
here as its UTF-8 bytes), `features` (a mapping name → numeric value, carried
as an association list in canonical order), and the remaining sections
(`ai_annotations`, `attention_maps`, `generation_record`), which the
development carries as their already-canonical byte encoding, since none of
the claims under verification depend on their inner structure.  §9 of the
design leaves the exact wire layout open and requires the implementer to fix
one canonical layout; the layout fixed here is byte-oriented with 32-bit
big-endian length fields.
-/

/-- Big-endian 32-bit encoding of a length or numeric field. -/
def enc32 (n : Nat) : List Nat :=
  [n / 2 ^ 24 % 256, n / 2 ^ 16 % 256, n / 2 ^ 8 % 256, n % 256]

/-- Big-endian 32-bit decoding. -/
def dec32 (l : List Nat) : Nat := l.foldl (fun acc b => acc * 256 + b) 0

theorem length_enc32 (n : Nat) : (enc32 n).length = 4 := rfl

theorem dec32_enc32 {n : Nat} (h : n < 2 ^ 32) : dec32 (enc32 n) = n := by
  simp only [enc32, dec32, List.foldl]
  omega

theorem enc32_lt (n : Nat) : ∀ b ∈ enc32 n, b < 256 := by
  intro b hb
  simp only [enc32, List.mem_cons, List.not_mem_nil, or_false] at hb
  rcases hb with h | h | h | h <;> subst h <;> omega

/-- Structured metadata payload (§3 of the design document). -/
structure MetadataPayload where
  version : Nat
  creation_timestamp : List Nat
  features : List (List Nat × Nat)
  ai_annotations : List Nat
deriving DecidableEq

/-- Versions the deserializer accepts (§3: decode rejects unsupported
values; version 1 is the one the harnesses exercise). -/
def supportedVersions : List Nat := [1]

/-- Wire encoding of one feature entry: length-prefixed name, then value. -/
def serializeFeature (f : List Nat × Nat) : List Nat :=
  enc32 f.1.length ++ f.1 ++ enc32 f.2

/-- Canonical, deterministic serialization (§4.1). -/
def serialize (p : MetadataPayload) : List Nat :=
  [p.version % 256]
    ++ enc32 p.creation_timestamp.length ++ p.creation_timestamp
    ++ enc32 p.features.length ++ (p.features.map serializeFeature).flatten
    ++ enc32 p.ai_annotations.length ++ p.ai_annotations

/-- Take exactly `n` bytes off the front of the stream. -/
def readN (n : Nat) (l : List Nat) : Option (List Nat × List Nat) :=
  if n ≤ l.length then some (l.take n, l.drop n) else Option.none

/-- Read one byte. -/
def readByte : List Nat → Option (Nat × List Nat)
  | [] => Option.none
  | b :: r => some (b, r)

/-- Read a 32-bit big-endian field. -/
def readU32 (l : List Nat) : Option (Nat × List Nat) :=
  match readN 4 l with
  | some (c, r) => some (dec32 c, r)
  | Option.none => Option.none

/-- Parse `n` feature entries. -/
def readFeatureEntries : Nat → List Nat → Option (List (List Nat × Nat) × List Nat)
  | 0, l => some ([], l)
  | n + 1, l =>
    match readU32 l with
    | Option.none => Option.none
    | some (len, r1) =>
      match readN len r1 with
      | Option.none => Option.none
      | some (name, r2) =>
        match readU32 r2 with
        | Option.none => Option.none
        | some (v, r3) =>
          match readFeatureEntries n r3 with
          | Option.none => Option.none
          | some (fs, r4) => some ((name, v) :: fs, r4)

/-- Deserialize (§4.1): fails (returns nothing, the FormatError outcome)
when the bytes are not well-formed or the version is unsupported. -/
def deserialize (l : List Nat) : Option MetadataPayload :=
  match readByte l with
  | Option.none => Option.none
  | some (v, r1) =>
    if v ∈ supportedVersions then
      match readU32 r1 with
      | Option.none => Option.none
      | some (tsLen, r2) =>
        match readN tsLen r2 with
        | Option.none => Option.none
        | some (ts, r3) =>
          match readU32 r3 with
          | Option.none => Option.none
          | some (featCount, r4) =>
            match readFeatureEntries featCount r4 with
            | Option.none => Option.none
            | some (fs, r5) =>
              match readU32 r5 with
              | Option.none => Option.none
              | some (annLen, r6) =>
                match readN annLen r6 with
                | Option.none => Option.none
                | some (ann, r7) =>
                  if r7 = [] then some ⟨v, ts, fs, ann⟩ else Option.none
    else Option.none

/-- Payloads the format supports: a supported version, every carried byte an
actual byte, and every length field within the 32-bit length encoding. -/
def ValidPayload (p : MetadataPayload) : Prop :=
  p.version ∈ supportedVersions ∧
  p.creation_timestamp.length < 2 ^ 32 ∧
  (∀ b ∈ p.creation_timestamp, b < 256) ∧
  p.features.length < 2 ^ 32 ∧
  (∀ f ∈ p.features, f.1.length < 2 ^ 32 ∧ f.2 < 2 ^ 32 ∧ ∀ b ∈ f.1, b < 256) ∧
  p.ai_annotations.length < 2 ^ 32 ∧
  (∀ b ∈ p.ai_annotations, b < 256)

instance (p : MetadataPayload) : Decidable (ValidPayload p) := by
  unfold ValidPayload
  infer_instance

theorem readN_exact (a rest : List Nat) : readN a.length (a ++ rest) = some (a, rest) := by
  simp [readN, List.take_left' rfl, List.drop_left' rfl]

theorem readN_all (a : List Nat) : readN a.length a = some (a, []) := by
  have h := readN_exact a []
  simpa using h

theorem readU32_enc32 {n : Nat} (h : n < 2 ^ 32) (rest : List Nat) :
    readU32 (enc32 n ++ rest) = some (n, rest) := by
  have h4 : readN 4 (enc32 n ++ rest) = some (enc32 n, rest) := by
    have := readN_exact (enc32 n) rest
    rwa [length_enc32] at this
  simp [readU32, h4, dec32_enc32 h]

theorem readFeatureEntries_roundtrip (fs : List (List Nat × Nat))
    (hv : ∀ f ∈ fs, f.1.length < 2 ^ 32 ∧ f.2 < 2 ^ 32 ∧ ∀ b ∈ f.1, b < 256)
    (rest : List Nat) :
    readFeatureEntries fs.length ((fs.map serializeFeature).flatten ++ rest) =
      some (fs, rest) := by
  induction fs with
  | nil => simp [readFeatureEntries]
  | cons f t ih =>
    obtain ⟨hlen, hval, _⟩ := hv f (by simp)
    simp only [List.map_cons, List.flatten_cons, List.length_cons,
      serializeFeature, List.append_assoc]
    simp only [readFeatureEntries, readU32_enc32 hlen, readN_exact f.1,
      readU32_enc32 hval, ih (fun g hg => hv g (by simp [hg]))]

/-- Payload-codec law of §4.1: `deserialize(serialize(p)) == p` for every
valid payload. -/
theorem deserialize_serialize (p : MetadataPayload) (hv : ValidPayload p) :
    deserialize (serialize p) = some p := by
  obtain ⟨hver, hts, _, hfc, hfs, hann, _⟩ := hv
  have hv256 : p.version % 256 = p.version := by
    have h1 : p.version = 1 := by simpa [supportedVersions] using hver
    simp [h1]
  simp only [serialize, deserialize, List.cons_append, List.nil_append,
    List.append_assoc, readByte, hv256]
  rw [if_pos hver]
  simp only [readU32_enc32 hts, readN_exact p.creation_timestamp,
    readU32_enc32 hfc, readFeatureEntries_roundtrip p.features hfs,
    readU32_enc32 hann, readN_all, if_pos rfl]
  simp

/-! ### Error-correcting codec

Modelled from the spec: `meow_format.py` (which wraps the reedsolo
`RSCodec`) is not among the checked-in sources.  Following §4.2, the
redundancy level selects a parity-symbol count per 255-byte block (8-bit
symbols; none = 0, low = 16, medium = 32, high = 64), data beyond one
block's data capacity is split across independently protected blocks
concatenated in order, and decoding fails when a block's corruption exceeds
the correction capacity.  The Reed-Solomon parity symbols are modelled as
polynomial-evaluation check symbols reduced mod 256 and the decoder is
modelled at its correction-free core: an uncorrupted codeword decodes to its
data part, a codeword the check rejects fails.  Every claim proved below
exercises only uncorrupted codewords, for which this model and the real
codec agree; the bounded-correction behaviour on corrupted codewords is
outside the model (see claim C5).
-/

/-- Redundancy level (§4.2). -/
inductive RSLevel
  | none
  | low
  | medium
  | high
deriving DecidableEq

/-- Parity bytes per 255-byte block for each redundancy level. -/
def parityCount : RSLevel → Nat
  | RSLevel.none => 0
  | RSLevel.low => 16
  | RSLevel.medium => 32
  | RSLevel.high => 64

/-- Reed-Solomon block size in bytes (8-bit symbols). -/
def blockSize : Nat := 255

/-- Data capacity of one block: 255 minus the parity symbols. -/
def dataPerBlock (lv : RSLevel) : Nat := blockSize - parityCount lv

/-- Evaluation of the data polynomial at `x`, mod 256 (the check-symbol
computation standing in for the Reed-Solomon generator arithmetic). -/
def polyEval (data : List Nat) (x : Nat) : Nat :=
  data.foldl (fun acc b => (acc * x + b) % 256) 0

/-- Parity symbols of one data block. -/
def rsParity (par : Nat) (data : List Nat) : List Nat :=
  (List.range par).map (fun i => polyEval data (i + 2))

/-- Systematic encoding of one block: data, then parity. -/
def rsEncodeBlock (par : Nat) (data : List Nat) : List Nat :=
  data ++ rsParity par data

/-- ECC encode (§4.2): split into blocks, protect each independently,
concatenate in order.  `RSLevel.none` is the identity transform. -/
def rsEncode (lv : RSLevel) (data : List Nat) : List Nat :=
  ((chunksOf (dataPerBlock lv) data).map (rsEncodeBlock (parityCount lv))).flatten

/-- Decode one block: strip the parity, verify it, fail on mismatch. -/
def rsDecodeBlock (par : Nat) (b : List Nat) : Option (List Nat) :=
  let d := b.take (b.length - par)
  if rsParity par d = b.drop (b.length - par) then some d else Option.none

/-- Decode a list of blocks, concatenating the recovered data. -/
def rsDecodeBlocks (par : Nat) : List (List Nat) → Option (List Nat)
  | [] => some []
  | b :: bs =>
    match rsDecodeBlock par b, rsDecodeBlocks par bs with
    | some d, some ds => some (d ++ ds)
    | _, _ => Option.none

/-- ECC decode (§4.2): split the codeword at the 255-byte block boundary and
decode each block. -/
def rsDecode (lv : RSLevel) (cw : List Nat) : Option (List Nat) :=
  rsDecodeBlocks (parityCount lv) (chunksOf blockSize cw)

theorem length_rsParity (par : Nat) (data : List Nat) :
    (rsParity par data).length = par := by
  simp [rsParity]

theorem polyEval_lt (data : List Nat) (x : Nat) : polyEval data x < 256 := by
  have main : ∀ (l : List Nat) (acc : Nat), acc < 256 →
      List.foldl (fun acc b => (acc * x + b) % 256) acc l < 256 := by
    intro l
    induction l with
    | nil => intro acc h; simpa using h
    | cons z t ih =>
      intro acc h
      simp only [List.foldl]
      exact ih _ (Nat.mod_lt _ (by omega))
  exact main data 0 (by omega)

theorem rsParity_lt (par : Nat) (data : List Nat) :
    ∀ b ∈ rsParity par data, b < 256 := by
  intro b hb
  simp only [rsParity, List.mem_map] at hb
  obtain ⟨i, _, rfl⟩ := hb
  exact polyEval_lt data (i + 2)

theorem rsDecodeBlock_encode (par : Nat) (data : List Nat) :
    rsDecodeBlock par (rsEncodeBlock par data) = some data := by
  have hsub : (rsEncodeBlock par data).length - par = data.length := by
    simp [rsEncodeBlock, length_rsParity]
  simp only [rsDecodeBlock]
  rw [hsub, show rsEncodeBlock par data = data ++ rsParity par data from rfl,
    List.take_left' rfl, List.drop_left' rfl, if_pos rfl]

theorem dataPerBlock_pos (lv : RSLevel) : 1 ≤ dataPerBlock lv := by
  cases lv <;> decide

theorem dataPerBlock_add (lv : RSLevel) :
    dataPerBlock lv + parityCount lv = blockSize := by
  cases lv <;> decide

/-- ECC law: decoding an uncorrupted codeword returns the original data, at
every redundancy level. -/
theorem rsDecode_rsEncode (lv : RSLevel) (data : List Nat) :
    rsDecode lv (rsEncode lv data) = some data := by
  have main : ∀ n (d : List Nat), d.length = n →
      rsDecode lv (rsEncode lv d) = some d := by
    intro n
    induction n using Nat.strong_induction_on with
    | _ n ih =>
      intro d hd
      cases d with
      | nil =>
        simp [rsEncode, rsDecode, chunksOf_nil, rsDecodeBlocks]
      | cons a t =>
        have hne : (a :: t) ≠ ([] : List Nat) := by simp
        have h1 : 1 ≤ dataPerBlock lv := dataPerBlock_pos lv
        rw [rsEncode, chunksOf_take_drop h1 _ hne]
        set c := (a :: t).take (dataPerBlock lv) with hc
        set rest := (a :: t).drop (dataPerBlock lv) with hrest
        simp only [List.map_cons, List.flatten_cons]
        have hcne : c ≠ [] := by
          rw [hc]
          simp [List.take_eq_nil_iff]
          omega
        by_cases hfull : dataPerBlock lv ≤ (a :: t).length
        · have hclen : c.length = dataPerBlock lv := by
            rw [hc, List.length_take]
            omega
          have hblen : (rsEncodeBlock (parityCount lv) c).length = blockSize := by
            simp [rsEncodeBlock, length_rsParity, hclen, ← dataPerBlock_add lv]
          rw [rsDecode, chunksOf_append _ _ hblen (by rw [blockSize]; omega)]
          have hrlen : rest.length < n := by
            rw [hrest, List.length_drop]
            omega
          have hrec := ih rest.length hrlen rest rfl
          rw [rsDecode, rsEncode] at hrec
          simp only [rsDecodeBlocks, rsDecodeBlock_encode, hrec]
          rw [hc, hrest]
          simp [List.take_append_drop]
        · push_neg at hfull
          have hcall : c = a :: t := by
            rw [hc]
            exact List.take_of_length_le (by omega)
          have hrnil : rest = [] := by
            rw [hrest]
            exact List.drop_eq_nil_of_le (by omega)
          rw [hrnil, chunksOf_nil]
          simp only [List.map_nil, List.flatten_nil, List.append_nil]
          have hblen : (rsEncodeBlock (parityCount lv) c).length ≤ blockSize := by
            simp only [rsEncodeBlock, List.length_append, length_rsParity]
            have : c.length ≤ dataPerBlock lv := by
              rw [hc, List.length_take]
              omega
            have := dataPerBlock_add lv
            omega
          have hbne : rsEncodeBlock (parityCount lv) c ≠ [] := by
            simp only [rsEncodeBlock, ne_eq, List.append_eq_nil]
            intro hboth
            exact hcne hboth.1
          rw [rsDecode, chunksOf_singleton _ hblen hbne]
          simp only [rsDecodeBlocks, rsDecodeBlock_encode]
          rw [hcall]
          simp
  exact main data.length data rfl

theorem chunksOf_sublist (n : Nat) (l : List α) :
    ∀ c ∈ chunksOf n l, c.Sublist l := by
  have main : ∀ (m : Nat) (l : List α), l.length = m →
      ∀ c ∈ chunksOf n l, c.Sublist l := by
    intro m
    induction m using Nat.strong_induction_on with
    | _ m ih =>
      intro l hl c hc
      cases l with
      | nil => rw [chunksOf_nil] at hc; simp at hc
      | cons x t =>
        rw [chunksOf_cons] at hc
        rcases List.mem_cons.mp hc with rfl | hmem
        · exact List.cons_sublist_cons.mpr (List.take_sublist _ _)
        · have hlt : (t.drop (n - 1)).length < m := by
            subst hl
            simp
            omega
          have hrec := ih _ hlt (t.drop (n - 1)) rfl c hmem
          exact hrec.trans
            ((List.drop_sublist _ _).trans (List.sublist_cons_self x t))
  exact main l.length l rfl

theorem rsEncode_lt (lv : RSLevel) (data : List Nat)
    (h : ∀ b ∈ data, b < 256) : ∀ b ∈ rsEncode lv data, b < 256 := by
  intro b hb
  simp only [rsEncode, List.mem_flatten, List.mem_map] at hb
  obtain ⟨l, ⟨blk, hblk, rfl⟩, hbl⟩ := hb
  simp only [rsEncodeBlock, List.mem_append] at hbl
  rcases hbl with hd | hp
  · have hsub : blk.Sublist data := chunksOf_sublist _ _ blk hblk
    exact h b (hsub.mem hd)
  · exact rsParity_lt _ _ b hp

/-- Length of the codeword for data that fits in a single block. -/
theorem rsEncode_length_small (lv : RSLevel) (data : List Nat)
    (hne : data ≠ []) (hle : data.length ≤ dataPerBlock lv) :
    (rsEncode lv data).length = data.length + parityCount lv := by
  rw [rsEncode, chunksOf_singleton data hle hne]
  simp [rsEncodeBlock, length_rsParity]

/-! ### Embedder and Extractor

Modelled from the spec: `meow_format.py` is not among the checked-in
sources.  The embedder (§4.4) serializes the payload, ECC-protects both a
fixed-width length header and the body, checks the mapper capacity
(§4.3: `height × width × 3 × bitsPerChannel`, with the 2 bits per channel
the viewer documents), and writes into a fresh buffer.  The extractor
(§4.5) inverts the stages and collapses every corruption-class failure into
the single "no data" outcome (§7).
-/

/-- Carrier image: a raster pixel buffer; `channels` is the row-major
R,G,B-interleaved flattening of the pixel grid. -/
structure Image where
  height : Nat
  width : Nat
  channels : List Nat
deriving DecidableEq

/-- Mapper capacity in bits (§4.3) at the fixed 2 bits per channel. -/
def capacity (img : Image) : Nat := img.height * img.width * 3 * 2

/-- Embed-side failures (§7): capacity and I/O failures surface explicitly. -/
inductive MeowError
  | capacityError
  | ioError
deriving DecidableEq

/-- Extraction-layer failures (§7): distinguishable internally, collapsed to
"no data" at the API boundary. -/
inductive ExtractError
  | eccFailure
  | formatError
deriving DecidableEq

/-- Header codeword: the ECC-protected 32-bit body-codeword length (§4.4
steps 2-3: fixed-width length header, itself ECC-protected). -/
def headerCodeword (lv : RSLevel) (bodyLen : Nat) : List Nat :=
  rsEncode lv (enc32 bodyLen)

/-- Byte length of the header codeword. -/
def headerCwLen (lv : RSLevel) : Nat := 4 + parityCount lv

/-- Full wire byte stream: header codeword, then body codeword. -/
def wireBytes (lv : RSLevel) (p : MetadataPayload) : List Nat :=
  headerCodeword lv (rsEncode lv (serialize p)).length ++ rsEncode lv (serialize p)

/-- Embedder (§4.4): serialize, ECC-protect, check capacity, write into a
fresh copy of the buffer.  Fails with `capacityError` before anything is
written when the stream exceeds the mapper capacity. -/
def embedE (img : Image) (p : MetadataPayload) (lv : RSLevel) :
    Except MeowError Image :=
  let wire := wireBytes lv p
  if 8 * wire.length ≤ capacity img then
    Except.ok ⟨img.height, img.width,
      writeChannelBits img.channels (bytesToBits wire)⟩
  else Except.error MeowError.capacityError

/-- Extractor core (§4.5) with the internal error taxonomy of §7: read and
ECC-decode the header, read exactly the announced body bits, ECC-decode,
deserialize. -/
def extractE (lv : RSLevel) (img : Image) : Except ExtractError MetadataPayload :=
  let allBits := readChannelBits img.channels
  let hbits := allBits.take (8 * headerCwLen lv)
  if hbits.length = 8 * headerCwLen lv then
    match rsDecode lv (bitsToBytes hbits) with
    | Option.none => Except.error ExtractError.eccFailure
    | some hdr =>
      let bodyLen := dec32 hdr
      let bbits := (allBits.drop (8 * headerCwLen lv)).take (8 * bodyLen)
      if bbits.length = 8 * bodyLen then
        match rsDecode lv (bitsToBytes bbits) with
        | Option.none => Except.error ExtractError.eccFailure
        | some body =>
          match deserialize body with
          | Option.none => Except.error ExtractError.formatError
          | some pl => Except.ok pl
      else Except.error ExtractError.eccFailure
  else Except.error ExtractError.eccFailure

/-- Public extraction result: payload or absent, never an exception (§4.5,
§7: Format and ECC failures collapse into the single "no data" outcome). -/
def extractOpt (lv : RSLevel) (img : Image) : Option MetadataPayload :=
  (extractE lv img).toOption

/-- Process-wide mutable state of the `meow_format` module as the harnesses
drive it: the module-level `RSCodec` binding, which the tests assign `None`
to disable ECC (`meow_format.RSCodec = None`) and later restore.  A fresh
`MeowFormat()` constructed under a given module state extracts according to
that state. -/
structure MeowFormatState where
  RSCodec : Option RSLevel
deriving DecidableEq

/-- Extraction as `MeowFormat._extract_hidden_data` behaves under a given
module state: with `RSCodec` installed the ECC path runs at the installed
redundancy, with `RSCodec = None` the raw (`RSLevel.none`) path runs
(§4.5: when ECC is disabled extraction still attempts a raw deserialize of
the unprotected body). -/
def extract_hidden_data (st : MeowFormatState) (img : Image) :
    Option MetadataPayload :=
  match st.RSCodec with
  | some lv => extractOpt lv img
  | Option.none => extractOpt RSLevel.none img

/-- Observable file-system outcome of `create_steganographic_meow`: the
written image when embedding succeeds, nothing at all when it fails —
never a partially written file (§4.4 step 4, §6). -/
def writtenFile (img : Image) (p : MetadataPayload) (lv : RSLevel) :
    Option Image :=
  (embedE img p lv).toOption

theorem length_headerCodeword (lv : RSLevel) (n : Nat) :
    (headerCodeword lv n).length = headerCwLen lv := by
  rw [headerCodeword, headerCwLen,
    rsEncode_length_small lv (enc32 n) (by simp [enc32]) ?hle, length_enc32]
  case hle =>
    rw [length_enc32]
    have := dataPerBlock_pos lv
    have := dataPerBlock_add lv
    cases lv <;> simp [dataPerBlock, parityCount, blockSize]

/-- Every byte of a valid payload's serialization is an actual byte. -/
theorem serialize_lt (p : MetadataPayload) (hv : ValidPayload p) :
    ∀ b ∈ serialize p, b < 256 := by
  obtain ⟨hver, hts, htb, hfc, hfs, hann, hab⟩ := hv
  intro b hb
  simp only [serialize, List.append_assoc, List.mem_append,
    List.mem_singleton, List.mem_flatten, List.mem_map] at hb
  rcases hb with h | h | h | h | ⟨l, ⟨f, hf, rfl⟩, hbl⟩ | h | h
  · subst h; exact Nat.mod_lt _ (by omega)
  · exact enc32_lt _ b h
  · exact htb b h
  · exact enc32_lt _ b h
  · simp only [serializeFeature, List.append_assoc, List.mem_append] at hbl
    rcases hbl with h | h | h
    · exact enc32_lt _ b h
    · exact (hfs f hf).2.2 b h
    · exact enc32_lt _ b h
  · exact enc32_lt _ b h
  · exact hab b h

/-- Round trip of the full pipeline: on a carrier with sufficient capacity,
extracting from the embedded image recovers the payload exactly. -/
theorem extractE_of_stream (lv : RSLevel) (img : Image) (hcw bcw : List Nat)
    (junk : List Bool) (body : List Nat) (p : MetadataPayload)
    (h1 : readChannelBits img.channels = bytesToBits (hcw ++ bcw) ++ junk)
    (h2 : hcw.length = headerCwLen lv)
    (h3 : ∀ b ∈ hcw, b < 256) (h4 : ∀ b ∈ bcw, b < 256)
    (h5 : rsDecode lv hcw = some (enc32 bcw.length))
    (h6 : bcw.length < 2 ^ 32)
    (h7 : rsDecode lv bcw = some body)
    (h8 : deserialize body = some p) :
    extractE lv img = Except.ok p := by
  have hhlen : (bytesToBits hcw).length = 8 * headerCwLen lv := by
    rw [length_bytesToBits, h2]
  have hsplit : bytesToBits (hcw ++ bcw) ++ junk =
      bytesToBits hcw ++ (bytesToBits bcw ++ junk) := by
    rw [bytesToBits_append, List.append_assoc]
  have htake : (bytesToBits hcw ++ (bytesToBits bcw ++ junk)).take
      (8 * headerCwLen lv) = bytesToBits hcw := List.take_left' hhlen
  have hdrop : (bytesToBits hcw ++ (bytesToBits bcw ++ junk)).drop
      (8 * headerCwLen lv) = bytesToBits bcw ++ junk := List.drop_left' hhlen
  have hblen : (bytesToBits bcw).length = 8 * bcw.length :=
    length_bytesToBits bcw
  have htake2 : (bytesToBits bcw ++ junk).take (8 * bcw.length) =
      bytesToBits bcw := List.take_left' hblen
  have hh : bitsToBytes (bytesToBits hcw) = hcw := bitsToBytes_bytesToBits _ h3
  have hb : bitsToBytes (bytesToBits bcw) = bcw := bitsToBytes_bytesToBits _ h4
  simp only [extractE, h1, hsplit, htake, hhlen, hh, h5, dec32_enc32 h6,
    hdrop, htake2, hblen, hb, h7, h8, if_pos rfl]
  simp

/-- Round trip of the full pipeline: on a carrier with sufficient capacity,
extracting from the embedded image recovers the payload exactly. -/
theorem extract_embed (img : Image) (p : MetadataPayload) (lv : RSLevel)
    (hv : ValidPayload p)
    (hch : img.channels.length = img.height * img.width * 3)
    (hcap : 8 * (wireBytes lv p).length ≤ capacity img)
    (hbody : (rsEncode lv (serialize p)).length < 2 ^ 32) :
    ∃ img', embedE img p lv = Except.ok img' ∧ extractE lv img' = Except.ok p := by
  refine ⟨⟨img.height, img.width,
    writeChannelBits img.channels (bytesToBits (wireBytes lv p))⟩, ?_, ?_⟩
  · rw [embedE]
    simp only [hcap, if_true]
  · have hbitsLen : (bytesToBits (wireBytes lv p)).length =
        8 * (wireBytes lv p).length := length_bytesToBits _
    have heven : (bytesToBits (wireBytes lv p)).length % 2 = 0 := by omega
    have hle : (bytesToBits (wireBytes lv p)).length ≤
        2 * img.channels.length := by
      rw [hbitsLen, hch]
      have hc2 : capacity img = 2 * (img.height * img.width * 3) := by
        rw [capacity]; ring
      omega
    have hread := readChannelBits_writeChannelBits img.channels
      (bytesToBits (wireBytes lv p)) heven hle
    refine extractE_of_stream lv _ (headerCodeword lv
        (rsEncode lv (serialize p)).length) (rsEncode lv (serialize p))
      (readChannelBits
        (img.channels.drop ((bytesToBits (wireBytes lv p)).length / 2)))
      (serialize p) p ?_ (length_headerCodeword lv _)
      (rsEncode_lt lv _ (enc32_lt _)) (rsEncode_lt lv _ (serialize_lt p hv))
      ?_ hbody (rsDecode_rsEncode lv (serialize p))
      (deserialize_serialize p hv)
    · exact hread
    · rw [headerCodeword]
      exact rsDecode_rsEncode lv (enc32 (rsEncode lv (serialize p)).length)

/-! ### Corruption helpers

These follow the checked-in sources directly.  `corrupt_lsb_data` appears
identically in `test_meow_ecc.py` and `test_ecc_effectiveness.py` (lines
9-27: a coin chooses between XOR masks `0x01` and `0x03`); the variant in
`benchmark_ecc.py` (lines 148-161) and `corrupt_pixels` in `demo_ecc.py`
(lines 103-116) XOR with `np.random.randint(1, 4)`, a uniform draw from
{1, 2, 3}.  The random sources (`random.randint`, `random.random`,
`np.random.randint`) are modelled by an explicit stream of seed values, one
four-component draw per loop iteration, with each bounded uniform draw
realised as `seed % range (+ offset)` so that every draw is in the range the
library call guarantees.  The Python functions mutate `img_array` in place
and return it; the shallow embedding returns the mutated array.
-/

/-- Pixel grid as numpy exposes it to the corruption helpers: rows of
pixels, each pixel a list of channel values. -/
def Grid := List (List (List Nat))

instance : DecidableEq Grid := by
  unfold Grid
  infer_instance

/-- Channel value at `img_array[y, x, c]`, with numpy-style bounds handled
by a default of 0 (the helpers only index in range). -/
def get3 (a : Grid) (y x c : Nat) : Nat :=
  ((a.getD y []).getD x []).getD c 0

/-- In-place store `img_array[y, x, c] = v`, as a functional update. -/
def set3 (a : Grid) (y x c v : Nat) : Grid :=
  a.set y ((a.getD y []).set x (((a.getD y []).getD x []).set c v))

/-- One corruption draw: the seed components behind `y`, `x`, `c` and the
mask choice. -/
def Draw := Nat × Nat × Nat × Nat

/-- XOR the selected channel with the mask. -/
def applyFlip (a : Grid) (y x c m : Nat) : Grid :=
  set3 a y x c ((get3 a y x c) ^^^ m)

/-- Loop body of `corrupt_lsb_data` in `test_meow_ecc.py` /
`test_ecc_effectiveness.py`: `y = random.randint(0, height-1)`,
`x = random.randint(0, width-1)`, `c = random.randint(0, 2)`, then XOR with
`0x01` when `random.random() < 0.5` and with `0x03` otherwise. -/
def flipTest (h w : Nat) (a : Grid) (d : Draw) : Grid :=
  applyFlip a (d.1 % h) (d.2.1 % w) (d.2.2.1 % 3)
    (if d.2.2.2 % 2 = 0 then 1 else 3)

/-- Loop body of `corrupt_lsb_data` in `benchmark_ecc.py` and of
`corrupt_pixels` in `demo_ecc.py`: positions as above and
`img_array[y, x, c] ^= np.random.randint(1, 4)`. -/
def flipRand (h w : Nat) (a : Grid) (d : Draw) : Grid :=
  applyFlip a (d.1 % h) (d.2.1 % w) (d.2.2.1 % 3) (d.2.2.2 % 3 + 1)

/-- Number of corruption draws: `int(height * width * corruption_rate)` —
computed from the pixel count, not the pixel-channel count. -/
def numCorrupt (h w : Nat) (rate : ℚ) : Nat :=
  (⌊(h * w : ℚ) * rate⌋).toNat

/-- Grid height and width as `img_array.shape` yields them. -/
def gridHeight (a : Grid) : Nat := a.length

/-- Grid width from the first row (numpy arrays are rectangular). -/
def gridWidth (a : Grid) : Nat := (a.getD 0 []).length

/-- The draws a run consumes: the first `numCorrupt` entries of the seed
stream. -/
def drawList (a : Grid) (rate : ℚ) (stream : Nat → Draw) : List Draw :=
  (List.range (numCorrupt (gridHeight a) (gridWidth a) rate)).map stream

/-- `corrupt_lsb_data` of `test_meow_ecc.py` / `test_ecc_effectiveness.py`
(lines 9-27). -/
def corrupt_lsb_data (a : Grid) (rate : ℚ) (stream : Nat → Draw) : Grid :=
  (drawList a rate stream).foldl (flipTest (gridHeight a) (gridWidth a)) a

/-- `corrupt_pixels` of `demo_ecc.py` (lines 103-116), which is also
`corrupt_lsb_data` of `benchmark_ecc.py` (lines 148-161). -/
def corrupt_pixels (a : Grid) (rate : ℚ) (stream : Nat → Draw) : Grid :=
  (drawList a rate stream).foldl (flipRand (gridHeight a) (gridWidth a)) a

theorem getD_set {α : Type} (l : List α) (n m : Nat) (v d : α) :
    (l.set n v).getD m d = if m = n ∧ n < l.length then v else l.getD m d := by
  induction l generalizing n m with
  | nil => simp
  | cons x t ih =>
    cases n with
    | zero =>
      cases m with
      | zero => simp
      | succ j => simp
    | succ i =>
      cases m with
      | zero => simp
      | succ j =>
        simp only [List.set_cons_succ, List.getD_cons_succ, ih t.length,
          List.length_cons]
        rw [ih]
        by_cases hji : j = i
        · subst hji
          by_cases hlen : j < t.length <;> simp [hlen]
        · simp [hji]

theorem length_getD_set3 (a : Grid) (y x c v : Nat) :
    (set3 a y x c v).length = a.length ∧
    (∀ y', ((set3 a y x c v).getD y' []).length = (a.getD y' []).length) ∧
    (∀ y' x', (((set3 a y x c v).getD y' []).getD x' []).length =
      ((a.getD y' []).getD x' []).length) := by
  refine ⟨List.length_set a _ _, ?_, ?_⟩
  · intro y'
    rw [set3, getD_set]
    by_cases hy : y' = y ∧ y < a.length
    · rw [if_pos hy, hy.1, List.length_set]
    · rw [if_neg hy]
  · intro y' x'
    rw [set3, getD_set]
    by_cases hy : y' = y ∧ y < a.length
    · rw [if_pos hy, hy.1, getD_set]
      by_cases hx : x' = x ∧ x < (a.getD y []).length
      · rw [if_pos hx, hx.1, List.length_set]
      · rw [if_neg hx]
    · rw [if_neg hy]

theorem get3_set3_div4 (a : Grid) (y x c m : Nat) (hm : m < 4) :
    ∀ y' x' c', get3 (set3 a y x c ((get3 a y x c) ^^^ m)) y' x' c' / 4 =
      get3 a y' x' c' / 4 := by
  have hx4 : ∀ (w : Nat), (w ^^^ m) / 4 = w / 4 := by
    intro w
    have hshift : ∀ (z : Nat), z / 4 = z >>> 2 := by
      intro z
      rw [Nat.shiftRight_eq_div_pow]
    rw [hshift, hshift]
    apply Nat.eq_of_testBit_eq
    intro i
    rw [Nat.testBit_shiftRight, Nat.testBit_shiftRight, Nat.testBit_xor]
    have hmb : m.testBit (2 + i) = false := by
      apply Nat.testBit_lt_two_pow
      calc m < 4 := hm
      _ = 2 ^ 2 := by norm_num
      _ ≤ 2 ^ (2 + i) := Nat.pow_le_pow_right (by omega) (by omega)
    rw [hmb, Bool.xor_false]
  intro y' x' c'
  rw [get3, set3, getD_set]
  by_cases hy : y' = y ∧ y < a.length
  · rw [if_pos hy, hy.1, getD_set]
    by_cases hx : x' = x ∧ x < (a.getD y []).length
    · rw [if_pos hx, hx.1, getD_set]
      by_cases hc : c' = c ∧ c < ((a.getD y []).getD x []).length
      · rw [if_pos hc, hc.1]
        rw [get3]
        exact hx4 _
      · rw [if_neg hc, get3]
    · rw [if_neg hx, get3]
  · rw [if_neg hy, get3]

/-- Invariant preserved by either loop body: upper bits (bit 2 and above) of
every channel value, and all three dimensions, are untouched. -/
theorem flip_invariant (step : Grid → Draw → Grid)
    (hstep : ∀ a d, ∃ y x c m, m < 4 ∧
      step a d = set3 a y x c ((get3 a y x c) ^^^ m))
    (ds : List Draw) :
    ∀ a : Grid,
      ((ds.foldl step a).length = a.length ∧
        (∀ y', ((ds.foldl step a).getD y' []).length = (a.getD y' []).length) ∧
        (∀ y' x', (((ds.foldl step a).getD y' []).getD x' []).length =
          ((a.getD y' []).getD x' []).length)) ∧
      ∀ y x c, get3 (ds.foldl step a) y x c / 4 = get3 a y x c / 4 := by
  induction ds with
  | nil => intro a; exact ⟨⟨rfl, fun _ => rfl, fun _ _ => rfl⟩, fun _ _ _ => rfl⟩
  | cons d t ih =>
    intro a
    obtain ⟨y, x, c, m, hm, hstepa⟩ := hstep a d
    have hrec := ih (step a d)
    simp only [List.foldl_cons]
    obtain ⟨⟨h1, h2, h3⟩, h4⟩ := hrec
    have hset := length_getD_set3 a y x c ((get3 a y x c) ^^^ m)
    refine ⟨⟨?_, ?_, ?_⟩, ?_⟩
    · rw [h1, hstepa, hset.1]
    · intro y'
      rw [h2 y', hstepa, hset.2.1 y']
    · intro y' x'
      rw [h3 y' x', hstepa, hset.2.2 y' x']
    · intro y' x' c'
      rw [h4 y' x' c', hstepa, get3_set3_div4 a y x c m hm y' x' c']

/-! ### Fallback loader and viewer

`smart_fallback_loader` and `load_steganographic_meow` live in the missing
`meow_format.py`; they are modelled from §4.6 of the design document with
the native image-container decoder abstracted as an oracle
`decodeFile : Path → Option Image` (a file that is a valid image in its
native container decodes to its pixel buffer).  `MeowGUI.open_meow` is
embedded from `meow_gui.py` lines 304-352.
-/

/-- File path, as the character list Python string operations act on. -/
def Path := List Char

/-- Fallback loader `load` of §4.6: always returns the plain displayable
image when the file is a valid image in its native container (decoding
failure of the container itself is the only way to get nothing). -/
def smart_fallback_loader (decodeFile : Path → Option Image) (path : Path) :
    Option Image :=
  decodeFile path

/-- Fallback loader `loadWithPayload` of §4.6 under module state `st`:
decode the container, attempt the Extractor on the pixel buffer, and on any
extraction failure still return the successfully decoded plain image with
an absent payload. -/
def load_steganographic_meow (decodeFile : Path → Option Image)
    (st : MeowFormatState) (path : Path) :
    Option (Image × Option MetadataPayload) :=
  match decodeFile path with
  | some img => some (img, extract_hidden_data st img)
  | Option.none => Option.none

/-- Case-insensitive `.meow` extension test of `meow_gui.py` line 318:
`file_path.lower().endswith('.meow')`.  `Char.toLower` matches Python's
`str.lower` on the ASCII file names at issue. -/
def isMeowPath (path : Path) : Bool :=
  List.isSuffixOf ['.', 'm', 'e', 'o', 'w'] (path.map Char.toLower)

/-- `MeowGUI.open_meow` (`meow_gui.py` lines 304-352), abstracted over the
loader oracles: the displayed image always comes from
`smart_fallback_loader`; only when the selected path ends with `.meow`
(case-insensitively) is `load_steganographic_meow` consulted, and its
payload is kept only when truthy (`if meow_data:`). -/
def open_meow (fallback : Path → Image)
    (loadMeow : Path → Image × Option MetadataPayload)
    (truthy : MetadataPayload → Bool) (path : Path) :
    Image × Option MetadataPayload :=
  let img := fallback path
  if isMeowPath path then
    match (loadMeow path).2 with
    | some d => (img, if truthy d then some d else Option.none)
    | Option.none => (img, Option.none)
  else (img, Option.none)

/-- Embedder frame model (§3 CarrierImage, §4.4): buffers live in a heap of
caller-owned images; embedding reads the source buffer, writes the hidden
bitstream into a fresh copy appended to the heap, and returns the new
buffer's index.  The caller's original buffer is never written. -/
def embedderRun (heap : List Image) (src : Nat) (p : MetadataPayload)
    (lv : RSLevel) : Except MeowError (List Image × Nat) :=
  match embedE (heap.getD src ⟨0, 0, []⟩) p lv with
  | Except.ok img' => Except.ok (heap ++ [img'], heap.length)
  | Except.error e => Except.error e

/-! ### Concrete sample data

Shared concrete instances used by the witnesses and counterexamples: a small
valid payload, a carrier whose capacity exactly matches its wire stream, an
undersized carrier, and the embedded image the extraction examples read. -/

/-- Sample payload: version 1, timestamp bytes "ts", one feature
("k" mapped to 5), no further annotation bytes.  Its serialization is 24
bytes, so at low redundancy the wire stream is exactly 60 bytes. -/
def payload1 : MetadataPayload := ⟨1, [116, 115], [([107], 5)], []⟩

/-- Carrier of 1×80 RGB pixels: capacity 480 bits, exactly the wire length
of `payload1` at low redundancy. -/
def carrierA : Image := ⟨1, 80, List.replicate 240 0⟩

/-- Carrier of a single pixel: capacity 6 bits, below any wire stream. -/
def carrierB : Image := ⟨1, 1, [0, 0, 0]⟩

/-- The image produced by embedding `payload1` into `carrierA` at low
redundancy. -/
def embeddedSample : Image :=
  (embedE carrierA payload1 RSLevel.low).toOption.getD ⟨0, 0, []⟩

/-! ### Claims -/

/-- C1: Round trip — for every supported metadata payload and every RGB
carrier with sufficient bit capacity, extracting from the image produced by
embedding the payload returns a payload equal to it, and in particular
`deserialize (serialize p) = p` for every valid payload. -/
theorem c1_round_trip (img : Image) (p : MetadataPayload) (lv : RSLevel)
    (hv : ValidPayload p)
    (hch : img.channels.length = img.height * img.width * 3)
    (hcap : 8 * (wireBytes lv p).length ≤ capacity img)
    (hbody : (rsEncode lv (serialize p)).length < 2 ^ 32) :
    (∃ img', embedE img p lv = Except.ok img' ∧
      extractOpt lv img' = some p) ∧
    deserialize (serialize p) = some p := by
  obtain ⟨img', h1, h2⟩ := extract_embed img p lv hv hch hcap hbody
  refine ⟨⟨img', h1, ?_⟩, deserialize_serialize p hv⟩
  rw [extractOpt, h2]
  rfl

/-- C1 witness: the round trip at the concrete carrier and payload. -/
theorem c1_round_trip_witness :
    ValidPayload payload1 ∧
    carrierA.channels.length = carrierA.height * carrierA.width * 3 ∧
    8 * (wireBytes RSLevel.low payload1).length ≤ capacity carrierA ∧
    (rsEncode RSLevel.low (serialize payload1)).length < 2 ^ 32 ∧
    ((∃ img', embedE carrierA payload1 RSLevel.low = Except.ok img' ∧
      extractOpt RSLevel.low img' = some payload1) ∧
      deserialize (serialize payload1) = some payload1) :=
  ⟨by decide, by decide, by decide, by decide,
    c1_round_trip carrierA payload1 RSLevel.low (by decide) (by decide)
      (by decide) (by decide)⟩

/-- C2: for every pixel buffer — including arbitrarily corrupted ones —
extraction under any module state returns either a recovered payload or the
absent result; every corruption-class failure (malformed bytes, ECC
failure, unsupported version) is an internal `ExtractError` collapsed into
the single "no data" outcome, never an exception. -/
theorem c2_extraction_never_raises :
    ∀ (st : MeowFormatState) (img : Image),
      (∃ p, extract_hidden_data st img = some p ∧
        extractE (st.RSCodec.getD RSLevel.none) img = Except.ok p) ∨
      (extract_hidden_data st img = Option.none ∧
        ∃ e, extractE (st.RSCodec.getD RSLevel.none) img = Except.error e) := by
  intro st img
  rcases st with ⟨codec⟩
  cases codec with
  | some lv =>
    cases hE : extractE lv img with
    | ok p =>
      refine Or.inl ⟨p, ?_, by simpa using hE⟩
      show (extractE lv img).toOption = some p
      rw [hE]
      rfl
    | error e =>
      refine Or.inr ⟨?_, e, by simpa using hE⟩
      show (extractE lv img).toOption = Option.none
      rw [hE]
      rfl
  | none =>
    cases hE : extractE RSLevel.none img with
    | ok p =>
      refine Or.inl ⟨p, ?_, by simpa using hE⟩
      show (extractE RSLevel.none img).toOption = some p
      rw [hE]
      rfl
    | error e =>
      refine Or.inr ⟨?_, e, by simpa using hE⟩
      show (extractE RSLevel.none img).toOption = Option.none
      rw [hE]
      rfl

/-- C3 counterexample: the claim that ECC enablement is passed explicitly
per call and never toggled through process-wide mutable state is false on
the code: `test_meow_ecc.py` lines 104-114 (and the other three harnesses)
disable ECC by assigning `meow_format.RSCodec = None` — a module-level
mutable global — and extraction of the very same buffer with identical
per-call arguments then yields a different result. -/
theorem c3_counterexample :
    extract_hidden_data ⟨some RSLevel.low⟩ embeddedSample ≠
      extract_hidden_data ⟨Option.none⟩ embeddedSample := by
  decide

/-- C3 amended: codec extraction is a pure function of the supplied buffer
and the process-wide `RSCodec` module global; ECC enablement is selected by
mutating that global (`None` selects the raw path), not by a per-call
parameter, and changing the global changes the result of extracting the
identical buffer. -/
theorem c3_global_toggle :
    (∀ (codec : Option RSLevel) (img : Image),
      extract_hidden_data ⟨codec⟩ img =
        extractOpt (codec.getD RSLevel.none) img) ∧
    extract_hidden_data ⟨some RSLevel.low⟩ embeddedSample = some payload1 ∧
    extract_hidden_data ⟨Option.none⟩ embeddedSample = Option.none := by
  refine ⟨?_, by decide, by decide⟩
  intro codec img
  cases codec <;> rfl

/-- C4: for every file that decodes as a valid image in its native
container, the fallback loading path returns that decoded displayable
image; when hidden-payload extraction fails the loader still returns the
plain image with an absent payload, and nothing is raised to the caller. -/
theorem c4_fallback_returns_image (decodeFile : Path → Option Image)
    (st : MeowFormatState) (path : Path) (img : Image)
    (h : decodeFile path = some img) :
    smart_fallback_loader decodeFile path = some img ∧
    load_steganographic_meow decodeFile st path =
      some (img, extract_hidden_data st img) ∧
    (extract_hidden_data st img = Option.none →
      load_steganographic_meow decodeFile st path = some (img, Option.none)) := by
  refine ⟨h, ?_, ?_⟩
  · simp only [load_steganographic_meow, h]
  · intro habs
    simp only [load_steganographic_meow, h, habs]

/-- C4 witness: a concrete container decode whose buffer has no hidden
data still loads as a plain image with an absent payload. -/
theorem c4_fallback_witness :
    smart_fallback_loader (fun _ => some ⟨0, 0, []⟩) ['x'] =
      some ⟨0, 0, []⟩ ∧
    load_steganographic_meow (fun _ => some ⟨0, 0, []⟩)
      ⟨some RSLevel.low⟩ ['x'] = some (⟨0, 0, []⟩, Option.none) := by
  have h := c4_fallback_returns_image (fun _ => some ⟨0, 0, []⟩)
    ⟨some RSLevel.low⟩ ['x'] ⟨0, 0, []⟩ rfl
  exact ⟨h.1, h.2.2 (by decide)⟩


/-- C6: capacity boundary and atomicity of embed — a payload whose encoded
wire bit length exactly equals the mapper capacity embeds successfully,
any payload even one bit larger fails with `capacityError`, and on such a
failure the embed aborts before any write, so no output file (and never a
partially written one) is produced. -/
theorem c6_capacity_boundary (img : Image) (p : MetadataPayload)
    (lv : RSLevel) :
    (8 * (wireBytes lv p).length = capacity img →
      ∃ img', embedE img p lv = Except.ok img' ∧
        writtenFile img p lv = some img') ∧
    (capacity img < 8 * (wireBytes lv p).length →
      embedE img p lv = Except.error MeowError.capacityError ∧
      writtenFile img p lv = Option.none) := by
  constructor
  · intro heq
    have hok : embedE img p lv = Except.ok ⟨img.height, img.width,
        writeChannelBits img.channels (bytesToBits (wireBytes lv p))⟩ := by
      rw [embedE]
      simp only [heq.le, if_true]
    exact ⟨_, hok, by rw [writtenFile, hok]; rfl⟩
  · intro hlt
    have hnle : ¬ (8 * (wireBytes lv p).length ≤ capacity img) := by omega
    have herr : embedE img p lv = Except.error MeowError.capacityError := by
      rw [embedE]
      simp only [hnle, if_false]
    exact ⟨herr, by rw [writtenFile, herr]; rfl⟩

/-- C6 witness: `payload1`'s wire stream is exactly 480 bits — precisely
the capacity of the 1×80 carrier, where embedding succeeds and a file
appears — while the single-pixel carrier is over capacity, the embed fails
with `capacityError`, and no file at all is produced. -/
theorem c6_capacity_witness :
    (∃ img', embedE carrierA payload1 RSLevel.low = Except.ok img' ∧
      writtenFile carrierA payload1 RSLevel.low = some img') ∧
    (embedE carrierB payload1 RSLevel.low =
        Except.error MeowError.capacityError ∧
      writtenFile carrierB payload1 RSLevel.low = Option.none) :=
  ⟨(c6_capacity_boundary carrierA payload1 RSLevel.low).1 (by decide),
    (c6_capacity_boundary carrierB payload1 RSLevel.low).2 (by decide)⟩

/-- C7: the Embedder writes the hidden bitstream into a fresh copy of the
source buffer appended to the buffer heap and returns that new buffer; every
pre-existing buffer — in particular the caller's original source buffer —
is bit-for-bit unchanged after the call. -/
theorem c7_embedder_copies (heap : List Image) (src : Nat)
    (p : MetadataPayload) (lv : RSLevel) (heap' : List Image) (idx : Nat)
    (h : embedderRun heap src p lv = Except.ok (heap', idx)) :
    heap'.take heap.length = heap ∧
    idx = heap.length ∧
    (∀ i, i < heap.length →
      heap'.getD i ⟨0, 0, []⟩ = heap.getD i ⟨0, 0, []⟩) ∧
    embedE (heap.getD src ⟨0, 0, []⟩) p lv =
      Except.ok (heap'.getD idx ⟨0, 0, []⟩) := by
  rw [embedderRun] at h
  cases hE : embedE (heap.getD src ⟨0, 0, []⟩) p lv with
  | ok img' =>
    rw [hE] at h
    have hpair : heap' = heap ++ [img'] ∧ idx = heap.length := by
      cases h
      exact ⟨rfl, rfl⟩
    obtain ⟨rfl, rfl⟩ := hpair
    refine ⟨List.take_left' rfl, rfl, ?_, ?_⟩
    · intro i hi
      rw [List.getD_eq_getElem?_getD, List.getD_eq_getElem?_getD,
        List.getElem?_append, if_pos hi]
    · rw [List.getD_eq_getElem?_getD,
        List.getElem?_append_right (le_refl _)]
      simp only [Nat.sub_self, List.getElem?_cons_zero, Option.getD_some]
  | error e =>
    rw [hE] at h
    exact Except.noConfusion h

/-- C7 witness: a concrete embed through the heap leaves the original
carrier untouched and returns the fresh buffer's index. -/
theorem c7_embedder_witness :
    ∃ heap' idx, embedderRun [carrierA] 0 payload1 RSLevel.low =
      Except.ok (heap', idx) ∧ heap'.take 1 = [carrierA] ∧ idx = 1 := by
  cases hE : embedderRun [carrierA] 0 payload1 RSLevel.low with
  | ok pr =>
    obtain ⟨heap', idx⟩ := pr
    have h := c7_embedder_copies [carrierA] 0 payload1 RSLevel.low heap' idx hE
    refine ⟨heap', idx, rfl, ?_, ?_⟩
    · exact h.1
    · exact h.2.1
  | error e =>
    have hok : (embedderRun [carrierA] 0 payload1 RSLevel.low).isOk = true := by
      decide
    rw [hE] at hok
    exact Bool.noConfusion hok

/-- C8: both corruption helpers modify a selected channel value only by XOR
with a mask in {1, 2, 3} (`corrupt_lsb_data` draws 1 or 3, `corrupt_pixels`
draws 1, 2 or 3), hence every channel value of the returned array agrees
with the input on bits 2 through 7 (`v / 4` is untouched), and all three
dimensions of the array's shape are unchanged. -/
theorem c8_corruption_only_low_bits :
    ∀ (a : Grid) (rate : ℚ) (stream : Nat → Draw),
      ((corrupt_lsb_data a rate stream).length = a.length ∧
        (∀ y, ((corrupt_lsb_data a rate stream).getD y []).length =
          (a.getD y []).length) ∧
        (∀ y x, (((corrupt_lsb_data a rate stream).getD y []).getD x []).length =
          ((a.getD y []).getD x []).length)) ∧
      (∀ y x c, get3 (corrupt_lsb_data a rate stream) y x c / 4 =
        get3 a y x c / 4) ∧
      ((corrupt_pixels a rate stream).length = a.length ∧
        (∀ y, ((corrupt_pixels a rate stream).getD y []).length =
          (a.getD y []).length) ∧
        (∀ y x, (((corrupt_pixels a rate stream).getD y []).getD x []).length =
          ((a.getD y []).getD x []).length)) ∧
      (∀ y x c, get3 (corrupt_pixels a rate stream) y x c / 4 =
        get3 a y x c / 4) := by
  intro a rate stream
  have hstepT : ∀ (b : Grid) (d : Draw), ∃ y x c m, m < 4 ∧
      flipTest (gridHeight a) (gridWidth a) b d =
        set3 b y x c ((get3 b y x c) ^^^ m) := by
    intro b d
    refine ⟨d.1 % gridHeight a, d.2.1 % gridWidth a, d.2.2.1 % 3,
      (if d.2.2.2 % 2 = 0 then 1 else 3), ?_, rfl⟩
    by_cases hd : d.2.2.2 % 2 = 0 <;> simp [hd]
  have hstepR : ∀ (b : Grid) (d : Draw), ∃ y x c m, m < 4 ∧
      flipRand (gridHeight a) (gridWidth a) b d =
        set3 b y x c ((get3 b y x c) ^^^ m) := by
    intro b d
    refine ⟨d.1 % gridHeight a, d.2.1 % gridWidth a, d.2.2.1 % 3,
      d.2.2.2 % 3 + 1, by omega, rfl⟩
  have hT := flip_invariant (flipTest (gridHeight a) (gridWidth a)) hstepT
    (drawList a rate stream) a
  have hR := flip_invariant (flipRand (gridHeight a) (gridWidth a)) hstepR
    (drawList a rate stream) a
  exact ⟨hT.1, hT.2, hR.1, hR.2⟩

/-- C9: each corruption helper performs exactly `int(h * w * rate)`
single-channel flip draws — the count is derived from the pixel count
`h * w`, not the pixel-channel count `h * w * 3` — at positions drawn from
the seed stream with replacement, so repeated draws can hit the same
position and the number of distinct corrupted positions can be smaller than
the draw count (two identical draws below cancel and leave the array equal
to the input); the flips are folded into the array that was passed in, which
is also the returned array. -/
theorem c9_draw_count :
    (∀ (h w : Nat) (r : ℚ), 0 ≤ r →
      (numCorrupt h w r : ℤ) = ⌊(h * w : ℚ) * r⌋) ∧
    (∀ (a : Grid) (r : ℚ) (s : Nat → Draw),
      (drawList a r s).length =
        numCorrupt (gridHeight a) (gridWidth a) r ∧
      corrupt_pixels a r s = (drawList a r s).foldl
        (flipRand (gridHeight a) (gridWidth a)) a ∧
      corrupt_lsb_data a r s = (drawList a r s).foldl
        (flipTest (gridHeight a) (gridWidth a)) a) ∧
    (numCorrupt 10 10 (1 / 100) = 1 ∧
      (⌊((10 * 10 * 3 : ℚ)) * (1 / 100)⌋).toNat = 3) ∧
    (numCorrupt 1 1 (2 : ℚ) = 2 ∧
      corrupt_pixels [[[5, 6, 7]]] (2 : ℚ) (fun _ => (0, 0, 0, 0)) =
        [[[5, 6, 7]]]) := by
  have h112 : numCorrupt 1 1 (2 : ℚ) = 2 := by
    rw [numCorrupt]
    norm_num
    rfl
  refine ⟨?_, ?_, ⟨?_, ?_⟩, h112, ?_⟩
  · intro h w r hr
    rw [numCorrupt]
    have hnn : (0 : ℚ) ≤ (h * w : ℚ) * r :=
      mul_nonneg (by positivity) hr
    exact Int.toNat_of_nonneg (Int.floor_nonneg.mpr hnn)
  · intro a r s
    exact ⟨by rw [drawList]; simp, rfl, rfl⟩
  · rw [numCorrupt]
    norm_num
  · norm_num
    rfl
  · show corrupt_pixels [[[5, 6, 7]]] (2 : ℚ) (fun _ => (0, 0, 0, 0)) =
      [[[5, 6, 7]]]
    rw [corrupt_pixels, drawList]
    have hgh : gridHeight [[[5, 6, 7]]] = 1 := rfl
    have hgw : gridWidth [[[5, 6, 7]]] = 1 := rfl
    rw [hgh, hgw, h112]
    decide

/-- C9 witness: the draw-count law at a concrete grid and rate. -/
theorem c9_draw_count_witness :
    (numCorrupt 2 3 (1 / 2 : ℚ) : ℤ) =
      ⌊((2 : Nat) * (3 : Nat) : ℚ) * (1 / 2 : ℚ)⌋ :=
  c9_draw_count.1 2 3 (1 / 2 : ℚ) (by norm_num)

/-- C10: the viewer's "Open MEOW" action attempts hidden-payload extraction
only when the selected path ends with `.meow` compared case-insensitively;
for every other path it displays the image returned by
`smart_fallback_loader` with no metadata, and the result does not depend on
the extraction loader at all. -/
theorem c10_extension_gate (fallback : Path → Image)
    (lm lm' : Path → Image × Option MetadataPayload)
    (truthy : MetadataPayload → Bool) (path : Path) :
    (isMeowPath path = false →
      open_meow fallback lm truthy path = (fallback path, Option.none) ∧
      open_meow fallback lm truthy path =
        open_meow fallback lm' truthy path) ∧
    (isMeowPath path = true →
      open_meow fallback lm truthy path = (fallback path,
        match (lm path).2 with
        | some d => if truthy d then some d else Option.none
        | Option.none => Option.none)) := by
  constructor
  · intro hf
    constructor
    · rw [open_meow]
      simp [hf]
    · rw [open_meow, open_meow]
      simp [hf]
  · intro ht
    rw [open_meow]
    cases hx : (lm path).2 with
    | none => simp [ht, hx]
    | some d => simp [ht, hx]

/-- C10 witness: `photo.png` is displayed through the fallback loader with
no metadata regardless of the extraction loader, while the gate is taken
for `X.MeOW` (case-insensitively). -/
theorem c10_extension_gate_witness :
    (open_meow (fun _ => ⟨0, 0, []⟩)
        (fun _ => (⟨0, 0, []⟩, some payload1)) (fun _ => true)
        (['p', 'h', 'o', 't', 'o', '.', 'p', 'n', 'g']) =
      ((⟨0, 0, []⟩ : Image), Option.none)) ∧
    (open_meow (fun _ => ⟨0, 0, []⟩)
        (fun _ => (⟨0, 0, []⟩, some payload1)) (fun _ => true)
        (['X', '.', 'M', 'e', 'O', 'W']) =
      ((⟨0, 0, []⟩ : Image), some payload1)) := by
  constructor
  · exact ((c10_extension_gate (fun _ => ⟨0, 0, []⟩)
      (fun _ => (⟨0, 0, []⟩, some payload1))
      (fun _ => (⟨0, 0, []⟩, some payload1)) (fun _ => true)
      (['p', 'h', 'o', 't', 'o', '.', 'p', 'n', 'g'])).1 (by decide)).1
  · have h := (c10_extension_gate (fun _ => ⟨0, 0, []⟩)
      (fun _ => (⟨0, 0, []⟩, some payload1))
      (fun _ => (⟨0, 0, []⟩, some payload1)) (fun _ => true)
      (['X', '.', 'M', 'e', 'O', 'W'])).2 (by decide)
    simpa using h

end Meow
